import Mathlib

/-!
# Verification of the buffer-chain utilities (`quic/common/BufUtil.cpp`)

A shallow embedding of the module's three components and their operations:

* `BufQueue` — a queue owning at most one chain of segments plus a cached
  total length (`chainLength_`), with `append`, `splitAtMost`,
  `trimStartAtMost`, `trimStart` and `move`;
* `BufAppender` — grows a chain by splicing in whole chains (`insert`);
* `BufWriter` — writes into a single pre-sized segment under a byte budget
  (`push`, `append`, `backFill`).

The external segment collaborator (folly's `IOBuf`) is modelled as a
`Segment`: a list of bytes (its logical data range), an identifier of the
underlying storage (so that storage sharing is observable), and a
shared-ownership flag.  A circular chain is modelled as the Lean list of its
segments starting at the entry node; the chain's circular `next` pointer
wraps at the end of the list.  A nullable owning pointer to a chain (`Buf`,
i.e. `std::unique_ptr<folly::IOBuf>`) is `Option (List Segment)`.
-/

namespace BufUtil

/-- A segment of a chain: one contiguous memory region.  `data` is the bytes
of its logical data range, `storage` identifies the underlying backing
storage (clones share it), `shared` is the shared-ownership flag. -/
structure Segment where
  data : List Nat
  storage : Nat
  shared : Bool
deriving DecidableEq, Repr

/-- A nullable owned chain (`std::unique_ptr<folly::IOBuf>`): `none` is the
null pointer, `some l` a chain whose segments, from the entry node onward,
are `l`. -/
abbrev Buf := Option (List Segment)

/-- All bytes of a chain, in traversal order from the entry node. -/
def chainBytes : List Segment → List Nat
  | [] => []
  | s :: rest => s.data ++ chainBytes rest

/-- Total data length of a chain (`computeChainDataLength`). -/
def sumLen : List Segment → Nat
  | [] => 0
  | s :: rest => s.data.length + sumLen rest

/-- Bytes held by a possibly-null chain. -/
def bufBytes : Buf → List Nat
  | none => []
  | some l => chainBytes l

/-- Segments held by a possibly-null chain. -/
def bufSegs : Buf → List Segment
  | none => []
  | some l => l

/-- `folly::IOBuf::create(0)`: a fresh empty segment (zero-length data,
fresh zero-capacity storage, not shared). -/
def create0 : Segment := { data := [], storage := 0, shared := false }

/-- Number of segment headers in a chain that reference storage `sid`
(the storage's share count as observed through these segments). -/
def storageCount (l : List Segment) (sid : Nat) : Nat :=
  l.countP (fun s => s.storage == sid)

/-- `BufQueue`: owns at most one chain plus the cached length counter. -/
structure BufQueue where
  chain_ : Buf
  chainLength_ : Nat
deriving DecidableEq, Repr

/-- The byte contents of the queue, front first. -/
def queueBytes (q : BufQueue) : List Nat := bufBytes q.chain_

/-- The module's length invariant: the cached `chainLength_` equals the
number of bytes actually held in the chain. -/
def lengthInv (q : BufQueue) : Prop := q.chainLength_ = (queueBytes q).length

/-- `BufQueue::move()`: detach and return the whole chain, leaving the queue
empty. -/
def BufQueue.move (q : BufQueue) : Buf × BufQueue :=
  (q.chain_, ⟨none, 0⟩)

/-- The traversal loop of `BufQueue::splitAtMost` (lines 29–35): starting at
the chain head, consume whole segments while `len` is not exhausted and the
current segment does not strictly exceed the remaining `len`.  Returns
`(consumed prefix, remaining len, suffix starting at current)`. -/
def splitGo : List Segment → Nat → List Segment × Nat × List Segment
  | l, 0 => ([], 0, l)
  | [], len => ([], len, [])
  | s :: rest, len =>
    if s.data.length > len then ([], len, s :: rest)
    else
      let r := splitGo rest (len - s.data.length)
      (s :: r.1, r.2.1, r.2.2)

/-- `BufQueue::splitAtMost(len)`: remove and return the first
`min(len, chainLength_)` bytes as a standalone chain.  Follows the source:
empty queue or `len == 0` returns `IOBuf::create(0)`; `len >= chainLength_`
is a full `move()`; otherwise walk with `splitGo`, then either excise the
fully-consumed prefix (exact boundary, `separateChain`) or additionally
clone the straddling segment (`cloneOne`), keep its first `len` remaining
bytes in the clone (`trimEnd`) and drop them from the original
(`trimStart`). -/
def BufQueue.splitAtMost (q : BufQueue) (len : Nat) : Buf × BufQueue :=
  match q.chain_ with
  | none => (some [create0], q)
  | some l =>
    if len = 0 then (some [create0], q)
    else if q.chainLength_ ≤ len then q.move
    else
      let newLen := q.chainLength_ - len
      let w := splitGo l len
      if w.2.1 = 0 then
        (some w.1, ⟨some w.2.2, newLen⟩)
      else
        match w.2.2 with
        | [] => (some w.1, ⟨none, newLen⟩)
        | cur :: post =>
          let clone : Segment := ⟨cur.data.take w.2.1, cur.storage, true⟩
          let cur' : Segment := ⟨cur.data.drop w.2.1, cur.storage, true⟩
          (some (w.1 ++ [clone]), ⟨some (cur' :: post), newLen⟩)

/-- The traversal loop of `BufQueue::trimStartAtMost` (lines 67–78) together
with the subsequent relinking (lines 79–95): fully skip segments shorter
than the remaining `amount`; if a segment can absorb the rest
(`length() >= amount`), trim its head in place and keep it (and everything
after it) as the new chain; if traversal wraps back to the entry node, the
whole chain is dropped.  Returns `(new chain or none, leftover amount)`. -/
def trimGo : List Segment → Nat → Buf × Nat
  | [], amount => (none, amount)
  | s :: rest, amount =>
    if amount ≤ s.data.length then
      (some (⟨s.data.drop amount, s.storage, s.shared⟩ :: rest), 0)
    else trimGo rest (amount - s.data.length)

/-- `BufQueue::trimStartAtMost(amount)`: discard up to `amount` bytes from
the front; returns `(bytes actually trimmed, new queue)`. -/
def BufQueue.trimStartAtMost (q : BufQueue) (amount : Nat) : Nat × BufQueue :=
  match q.chain_ with
  | none => (0, q)
  | some l =>
    if amount = 0 then (0, q)
    else
      let w := trimGo l amount
      let trimmed := amount - w.2
      (trimmed, ⟨w.1, q.chainLength_ - trimmed⟩)

/-- `BufQueue::trimStart(amount)`: run `trimStartAtMost`, then throw
`std::underflow_error` when fewer than `amount` bytes were trimmed.  The
returned queue is the state at the moment the call returns or throws; the
`Bool` records whether the underflow error was thrown. -/
def BufQueue.trimStart (q : BufQueue) (amount : Nat) : BufQueue × Bool :=
  let w := q.trimStartAtMost amount
  (w.2, w.1 != amount)

/-- `BufQueue::append(buf)`: no-op when `buf` is null or holds no bytes
(`buf->empty()`); otherwise add its total data length to `chainLength_` and
splice it onto the end of the owned chain (adopting it when the queue owned
none). -/
def BufQueue.append (q : BufQueue) (buf : Buf) : BufQueue :=
  match buf with
  | none => q
  | some l =>
    if sumLen l = 0 then q
    else
      match q.chain_ with
      | none => ⟨some l, q.chainLength_ + sumLen l⟩
      | some dst => ⟨some (dst ++ l), q.chainLength_ + sumLen l⟩

/-- Modelled from the spec: the external segment collaborator's
shared-ownership query (`folly::IOBuf::isShared`, invoked on a chain's entry
node), per spec §3 — "shared flag (true if storage is referenced by more
than one owner)" — read on the entry segment of the chain. -/
def isShared : List Segment → Bool
  | [] => false
  | s :: _ => s.shared

/-- `BufAppender`: a non-owning view of a chain being built.  `chain` is the
circular chain headed at `head_` (index 0); `crtBuf` is the index of the
segment `crtBuf_` points at; `lastBufShared` is the copy-on-write guard;
`appendLen` is the default grow size `appendLen_`. -/
structure BufAppender where
  chain : List Segment
  crtBuf : Nat
  lastBufShared : Bool
  appendLen : Nat
deriving DecidableEq, Repr

/-- `BufAppender::insert(data)`: record whether the inserted chain is shared
in the copy-on-write guard, splice the chain onto the end of the managed
chain (`head_->prependChain`), and point `crtBuf_` at the inserted chain's
entry node (`dataPtr = data.get()`). -/
def BufAppender.insert (a : BufAppender) (data : List Segment) : BufAppender :=
  { a with
    lastBufShared := isShared data
    chain := a.chain ++ data
    crtBuf := a.chain.length }

/-- The error taxonomy of the bounded writer. -/
inductive WriterError where
  | capacityExceeded
  | contractViolation
deriving DecidableEq, Repr

/-- `BufWriter`: writes into one externally owned segment.  `mem` is the
segment's byte storage from its data start (fixed size), `dataLen` the
segment's current logical length (`iobuf_.length()`), so its writable tail
begins at offset `dataLen`; `most`, `written`, `appendCount` are the
corresponding counters `most_`, `written_`, `appendCount_`. -/
structure BufWriter where
  mem : List Nat
  dataLen : Nat
  most : Nat
  written : Nat
  appendCount : Nat
deriving DecidableEq, Repr

/-- Overwrite `bytes.length` bytes of `mem` starting at offset `off`
(`memcpy(mem + off, bytes, len)`). -/
def writeAt (mem : List Nat) (off : Nat) (bytes : List Nat) : List Nat :=
  mem.take off ++ (bytes ++ mem.drop (off + bytes.length))

/-- Modelled from the spec: `BufWriter::sizeCheck` (declared in `BufUtil.h`,
which is not under `src/`) fails with **CapacityExceeded** when
`written + len > most` (spec §4.3 and §7). -/
def BufWriter.sizeCheck (w : BufWriter) (len : Nat) : Except WriterError Unit :=
  if w.written + len > w.most then .error .capacityExceeded else .ok ()

/-- `BufWriter::push(data, len)`: run `sizeCheck`, copy `len` bytes to the
segment's writable tail, advance the segment's length (`iobuf_.append`) and
`written_`.  (`appendCount_` is not touched by `push`.) -/
def BufWriter.push (w : BufWriter) (bytes : List Nat) : Except WriterError BufWriter :=
  match w.sizeCheck bytes.length with
  | .error e => .error e
  | .ok _ =>
    .ok { w with
      mem := writeAt w.mem w.dataLen bytes
      dataLen := w.dataLen + bytes.length
      written := w.written + bytes.length }

/-- `BufWriter::append(len)`: advance the segment's length, `written_` and
`appendCount_` by `len` without copying.  The source performs no size or
budget check, so this never returns an error; the `Except` result type is
kept only to make that comparison with `push` statable. -/
def BufWriter.append (w : BufWriter) (len : Nat) : Except WriterError BufWriter :=
  .ok { w with
    dataLen := w.dataLen + len
    written := w.written + len
    appendCount := w.appendCount + len }

/-- `BufWriter::backFill(data, len, destOffset)`: contract checks
`CHECK_GE(appendCount_, len)` and `CHECK_LE(destOffset + len,
iobuf_.length())`, then spend `len` of the `appendCount_` budget and
overwrite `len` bytes at `destOffset` from the segment's data start. -/
def BufWriter.backFill (w : BufWriter) (bytes : List Nat) (destOffset : Nat) :
    Except WriterError BufWriter :=
  if bytes.length > w.appendCount then .error .contractViolation
  else if destOffset + bytes.length > w.dataLen then .error .contractViolation
  else
    .ok { w with
      appendCount := w.appendCount - bytes.length
      mem := writeAt w.mem destOffset bytes }

/-! ## Concrete sample values (the spec §8 scenario: segments `"ABC"`,
`"DE"`, `"FGH"`, total length 8) -/

def segABC : Segment := ⟨[65, 66, 67], 1, false⟩

def segDE : Segment := ⟨[68, 69], 2, false⟩

def segFGH : Segment := ⟨[70, 71, 72], 3, false⟩

def q8 : BufQueue := ⟨some [segABC, segDE, segFGH], 8⟩

/-! ## Basic lemmas about chains -/

theorem chainBytes_append (a b : List Segment) :
    chainBytes (a ++ b) = chainBytes a ++ chainBytes b := by
  induction a with
  | nil => simp [chainBytes]
  | cons s rest ih => simp [chainBytes, ih]

theorem sumLen_eq_length (l : List Segment) :
    sumLen l = (chainBytes l).length := by
  induction l with
  | nil => simp [sumLen, chainBytes]
  | cons s rest ih => simp [sumLen, chainBytes, ih]

theorem sumLen_append (a b : List Segment) :
    sumLen (a ++ b) = sumLen a + sumLen b := by
  simp [sumLen_eq_length, chainBytes_append]

/-! ## The split walk -/

/-- The walk of `splitAtMost` partitions the chain and accounts for `len`:
the consumed prefix plus the suffix is the original chain, the prefix's byte
count plus the leftover is `len`, and a non-zero leftover is strictly inside
the suffix's head segment (the `current->length() > len` break). -/
theorem splitGo_spec (l : List Segment) (len : Nat) :
    (splitGo l len).1 ++ (splitGo l len).2.2 = l ∧
    sumLen (splitGo l len).1 + (splitGo l len).2.1 = len ∧
    ((splitGo l len).2.1 ≠ 0 →
      ∀ c p, (splitGo l len).2.2 = c :: p → (splitGo l len).2.1 < c.data.length) := by
  induction l generalizing len with
  | nil =>
    cases len with
    | zero => simp [splitGo, sumLen]
    | succ n => simp [splitGo, sumLen]
  | cons s rest ih =>
    cases len with
    | zero => simp [splitGo, sumLen]
    | succ n =>
      by_cases h : s.data.length > n + 1
      · simp only [splitGo, if_pos h]
        refine ⟨rfl, by simp [sumLen], ?_⟩
        intro _ c p hcp
        cases hcp
        omega
      · simp only [splitGo, if_neg h]
        obtain ⟨ih1, ih2, ih3⟩ := ih (n + 1 - s.data.length)
        refine ⟨by simp [ih1], ?_, ?_⟩
        · simp only [sumLen]
          omega
        · intro hne c p hcp
          exact ih3 hne c p hcp

/-- If `len` lies exactly on a segment boundary of the chain, the walk's
leftover is zero. -/
theorem splitGo_boundary (l : List Segment) (len i : Nat)
    (hb : sumLen (l.take i) = len) : (splitGo l len).2.1 = 0 := by
  induction l generalizing len i with
  | nil =>
    simp [sumLen] at hb
    subst hb
    simp [splitGo]
  | cons s rest ih =>
    cases len with
    | zero => simp [splitGo]
    | succ n =>
      cases i with
      | zero => simp [sumLen] at hb
      | succ j =>
        simp only [List.take_succ_cons, sumLen] at hb
        have hle : s.data.length ≤ n + 1 := by
          have : sumLen (rest.take j) + s.data.length = n + 1 := by omega
          omega
        simp only [splitGo, if_neg (by omega : ¬ s.data.length > n + 1)]
        exact ih (n + 1 - s.data.length) j (by omega)

/-! ## The trim walk -/

/-- When the chain holds fewer bytes than the requested amount, the trim
walk wraps: the chain is dropped and the leftover is the shortfall. -/
theorem trimGo_wrap (l : List Segment) (amount : Nat)
    (h : sumLen l < amount) : trimGo l amount = (none, amount - sumLen l) := by
  induction l generalizing amount with
  | nil => simp [trimGo, sumLen]
  | cons s rest ih =>
    simp only [sumLen] at h ⊢
    simp only [trimGo, if_neg (by omega : ¬ amount ≤ s.data.length)]
    rw [ih (amount - s.data.length) (by omega)]
    congr 1
    omega

/-- When the chain holds at least the requested (positive) amount, the trim
walk finds a resting segment: the leftover is zero and the new chain holds
exactly the original bytes with the first `amount` dropped. -/
theorem trimGo_found (l : List Segment) (amount : Nat)
    (h0 : 0 < amount) (h : amount ≤ sumLen l) :
    (trimGo l amount).2 = 0 ∧
    ∃ l', (trimGo l amount).1 = some l' ∧
      chainBytes l' = (chainBytes l).drop amount ∧
      sumLen l' = sumLen l - amount := by
  induction l generalizing amount with
  | nil => simp [sumLen] at h; omega
  | cons s rest ih =>
    by_cases hle : amount ≤ s.data.length
    · have hgo : trimGo (s :: rest) amount =
        (some (⟨s.data.drop amount, s.storage, s.shared⟩ :: rest), 0) := by
        simp [trimGo, hle]
      rw [hgo]
      refine ⟨rfl, _, rfl, ?_, ?_⟩
      · simp only [chainBytes]
        rw [List.drop_append_eq_append_drop]
        simp [Nat.sub_eq_zero_of_le hle]
      · simp only [sumLen, List.length_drop]
        omega
    · simp only [sumLen] at h
      have hgo : trimGo (s :: rest) amount = trimGo rest (amount - s.data.length) := by
        simp [trimGo, hle]
      rw [hgo]
      obtain ⟨h1, l', h2, h3, h4⟩ := ih (amount - s.data.length) (by omega) (by omega)
      refine ⟨h1, l', h2, ?_, ?_⟩
      · rw [h3]
        simp only [chainBytes]
        rw [List.drop_append_eq_append_drop,
            List.drop_eq_nil_of_le (by omega : s.data.length ≤ amount)]
        simp
      · rw [h4]
        simp only [sumLen]
        omega

/-! ## Operation specifications -/

/-- `append` always concatenates the appended bytes at the back of the queue
and grows the cached length by exactly the appended byte count (also in the
no-op cases, where that count is zero). -/
theorem append_spec (q : BufQueue) (buf : Buf) :
    queueBytes (q.append buf) = queueBytes q ++ bufBytes buf ∧
    (q.append buf).chainLength_ = q.chainLength_ + (bufBytes buf).length := by
  cases buf with
  | none => simp [BufQueue.append, bufBytes]
  | some l =>
    by_cases h : sumLen l = 0
    · have hnil : chainBytes l = [] := by
        have hl := sumLen_eq_length l
        rw [h] at hl
        exact List.eq_nil_of_length_eq_zero hl.symm
      simp [BufQueue.append, h, bufBytes, hnil]
    · have hne : chainBytes l ≠ [] := by
        intro hh
        exact h (by rw [sumLen_eq_length, hh]; rfl)
      cases hc : q.chain_ with
      | none =>
        simp [BufQueue.append, h, hc, queueBytes, bufBytes, sumLen_eq_length, hne]
      | some dst =>
        simp [BufQueue.append, h, hc, queueBytes, bufBytes, chainBytes_append,
          sumLen_eq_length, hne]

/-- Functional behaviour of `splitAtMost` on a queue satisfying the length
invariant: the returned chain holds exactly the first
`min(len, chainLength_)` bytes, the queue keeps exactly the rest, and the
cached length drops by the returned byte count. -/
theorem splitAtMost_spec (q : BufQueue) (len : Nat) (h : lengthInv q) :
    bufBytes (q.splitAtMost len).1 = (queueBytes q).take (min len q.chainLength_) ∧
    queueBytes (q.splitAtMost len).2 = (queueBytes q).drop (min len q.chainLength_) ∧
    (q.splitAtMost len).2.chainLength_ = q.chainLength_ - min len q.chainLength_ := by
  unfold lengthInv at h
  cases hc : q.chain_ with
  | none =>
    have hT : q.chainLength_ = 0 := by simpa [queueBytes, hc, bufBytes] using h
    simp [BufQueue.splitAtMost, hc, hT, queueBytes, bufBytes, chainBytes, create0]
  | some l =>
    have hT : q.chainLength_ = (chainBytes l).length := by
      simpa [queueBytes, hc, bufBytes] using h
    by_cases h0 : len = 0
    · subst h0
      simp [BufQueue.splitAtMost, hc, queueBytes, bufBytes, chainBytes, create0]
    · by_cases hle : q.chainLength_ ≤ len
      · have hmin : min len q.chainLength_ = q.chainLength_ := by omega
        have heq : q.splitAtMost len = (some l, ⟨none, 0⟩) := by
          simp [BufQueue.splitAtMost, hc, h0, hle, BufQueue.move]
        rw [heq, hmin]
        refine ⟨?_, ?_, ?_⟩ <;>
          simp [queueBytes, hc, bufBytes, hT]
      · have hlt : len < q.chainLength_ := by omega
        have hmin : min len q.chainLength_ = len := by omega
        obtain ⟨hs1, hs2, hs3⟩ := splitGo_spec l len
        rcases hsp : splitGo l len with ⟨pre, r, suf⟩
        rw [hsp] at hs1 hs2 hs3
        simp only at hs1 hs2 hs3
        by_cases hr : r = 0
        · subst hr
          have heq : q.splitAtMost len = (some pre, ⟨some suf, q.chainLength_ - len⟩) := by
            simp [BufQueue.splitAtMost, hc, h0, hle, hsp]
          rw [heq, hmin]
          have hbl : chainBytes l = chainBytes pre ++ chainBytes suf := by
            rw [← hs1, chainBytes_append]
          have hplen : (chainBytes pre).length = len := by
            rw [← sumLen_eq_length]
            omega
          have hTake : (chainBytes l).take len = chainBytes pre := by
            rw [hbl, List.take_append_eq_append_take, hplen, Nat.sub_self,
              List.take_zero, List.append_nil, List.take_of_length_le (le_of_eq hplen)]
          have hDrop : (chainBytes l).drop len = chainBytes suf := by
            rw [hbl, List.drop_append_eq_append_drop, hplen, Nat.sub_self,
              List.drop_zero, List.drop_eq_nil_of_le (le_of_eq hplen), List.nil_append]
          refine ⟨?_, ?_, rfl⟩
          · simpa [queueBytes, hc, bufBytes] using hTake.symm
          · simpa [queueBytes, hc, bufBytes] using hDrop.symm
        · cases suf with
          | nil =>
            exfalso
            have : sumLen l = (chainBytes l).length := sumLen_eq_length l
            have hpl : pre = l := by simpa using hs1
            rw [hpl] at hs2
            omega
          | cons cur post =>
            have hrlt : r < cur.data.length := hs3 hr cur post rfl
            have hrle : r ≤ len := by omega
            have heq : q.splitAtMost len =
                (some (pre ++ [⟨cur.data.take r, cur.storage, true⟩]),
                  ⟨some (⟨cur.data.drop r, cur.storage, true⟩ :: post),
                    q.chainLength_ - len⟩) := by
              simp [BufQueue.splitAtMost, hc, h0, hle, hsp, hr]
            rw [heq, hmin]
            have hbl : chainBytes l = chainBytes pre ++ (cur.data ++ chainBytes post) := by
              rw [← hs1, chainBytes_append]
              simp [chainBytes]
            have hplen : (chainBytes pre).length = len - r := by
              rw [← sumLen_eq_length]
              omega
            have hTake : (chainBytes l).take len = chainBytes pre ++ cur.data.take r := by
              rw [hbl, List.take_append_eq_append_take, hplen,
                List.take_of_length_le (show (chainBytes pre).length ≤ len by omega),
                (show len - (len - r) = r by omega),
                List.take_append_eq_append_take,
                Nat.sub_eq_zero_of_le (le_of_lt hrlt), List.take_zero, List.append_nil]
            have hDrop : (chainBytes l).drop len = cur.data.drop r ++ chainBytes post := by
              rw [hbl, List.drop_append_eq_append_drop, hplen,
                List.drop_eq_nil_of_le (show (chainBytes pre).length ≤ len by omega),
                (show len - (len - r) = r by omega), List.nil_append,
                List.drop_append_eq_append_drop,
                Nat.sub_eq_zero_of_le (le_of_lt hrlt), List.drop_zero]
            refine ⟨?_, ?_, rfl⟩
            · simp only [queueBytes, hc, bufBytes, hTake, chainBytes_append]
              simp [chainBytes]
            · simp only [queueBytes, hc, bufBytes, hDrop]
              simp [chainBytes]

/-- Functional behaviour of `trimStartAtMost` on a queue satisfying the
length invariant: it reports `min(amount, chainLength_)` trimmed bytes, the
queue keeps exactly the bytes after the first `amount`, the cached length
drops accordingly, and when the queue held fewer than `amount` bytes the
chain pointer is nulled. -/
theorem trimStartAtMost_spec (q : BufQueue) (amount : Nat) (h : lengthInv q) :
    (q.trimStartAtMost amount).1 = min amount q.chainLength_ ∧
    queueBytes (q.trimStartAtMost amount).2 = (queueBytes q).drop amount ∧
    (q.trimStartAtMost amount).2.chainLength_ = q.chainLength_ - amount ∧
    (q.chainLength_ < amount → (q.trimStartAtMost amount).2.chain_ = none) := by
  unfold lengthInv at h
  cases hc : q.chain_ with
  | none =>
    have hT : q.chainLength_ = 0 := by simpa [queueBytes, hc, bufBytes] using h
    simp [BufQueue.trimStartAtMost, hc, hT, queueBytes, bufBytes]
  | some l =>
    have hT : q.chainLength_ = (chainBytes l).length := by
      simpa [queueBytes, hc, bufBytes] using h
    have hsl : sumLen l = (chainBytes l).length := sumLen_eq_length l
    by_cases h0 : amount = 0
    · subst h0
      simp [BufQueue.trimStartAtMost, hc, queueBytes, bufBytes, hT]
    · have hpos : 0 < amount := Nat.pos_of_ne_zero h0
      by_cases hwrap : sumLen l < amount
      · have heq : q.trimStartAtMost amount =
            (amount - (amount - sumLen l),
              ⟨none, q.chainLength_ - (amount - (amount - sumLen l))⟩) := by
          simp [BufQueue.trimStartAtMost, hc, h0, trimGo_wrap l amount hwrap]
        rw [heq]
        refine ⟨by simp; omega, ?_, by simp; omega, fun _ => rfl⟩
        simp [queueBytes, hc, bufBytes,
          List.drop_eq_nil_of_le (show (chainBytes l).length ≤ amount by omega)]
      · obtain ⟨hz, l', hl', hbytes, hsum⟩ := trimGo_found l amount hpos (by omega)
        have heq : q.trimStartAtMost amount = (amount, ⟨some l', q.chainLength_ - amount⟩) := by
          simp [BufQueue.trimStartAtMost, hc, h0, hz, hl']
        rw [heq]
        refine ⟨by simp; omega, ?_, rfl, ?_⟩
        · simp [queueBytes, hc, bufBytes, hbytes]
        · intro hh
          omega

/-! ## Pointwise behaviour of in-place writes -/

/-- In-bounds `memcpy` preserves the buffer size. -/
theorem writeAt_length (mem bytes : List Nat) (off : Nat)
    (h : off + bytes.length ≤ mem.length) :
    (writeAt mem off bytes).length = mem.length := by
  simp [writeAt]
  omega

/-- Pointwise semantics of an in-bounds `memcpy`: positions inside
`[off, off + bytes.length)` read the copied bytes, all other positions read
the previous contents. -/
theorem writeAt_getD (mem bytes : List Nat) (off j : Nat)
    (h : off + bytes.length ≤ mem.length) :
    (writeAt mem off bytes).getD j 0 =
      if off ≤ j ∧ j < off + bytes.length then bytes.getD (j - off) 0
      else mem.getD j 0 := by
  have htl : (mem.take off).length = off := by
    simp
    omega
  unfold writeAt
  by_cases h1 : j < off
  · rw [List.getD_append _ _ _ _ (by omega), if_neg (by omega)]
    simp [List.getD_eq_getElem?_getD, List.getElem?_take, h1]
  · rw [List.getD_append_right _ _ _ _ (by omega), htl]
    by_cases h2 : j < off + bytes.length
    · rw [List.getD_append _ _ _ _ (by omega), if_pos ⟨by omega, h2⟩]
    · rw [List.getD_append_right _ _ _ _ (by omega), if_neg (by omega)]
      have hd : ∀ k, (mem.drop (off + bytes.length)).getD k 0 =
          mem.getD (off + bytes.length + k) 0 := by
        intro k
        simp [List.getD_eq_getElem?_getD, List.getElem?_drop]
      rw [hd, (show off + bytes.length + (j - off - bytes.length) = j by omega)]

/-! ## Invariant preservation -/

theorem sumLen_bufSegs (b : Buf) : sumLen (bufSegs b) = (bufBytes b).length := by
  cases b <;> simp [bufSegs, bufBytes, sumLen, sumLen_eq_length]

/-- The length invariant, phrased as the claim does: the cached counter
equals the sum of the segments' data-lengths. -/
theorem lengthInv_sumLen (q : BufQueue) :
    lengthInv q ↔ q.chainLength_ = sumLen (bufSegs q.chain_) := by
  rw [lengthInv, queueBytes, sumLen_bufSegs]

theorem lengthInv_none (q : BufQueue) (h : lengthInv q) (hn : q.chain_ = none) :
    q.chainLength_ = 0 := by
  rw [lengthInv, queueBytes, hn] at h
  simpa [bufBytes] using h

theorem append_lengthInv (q : BufQueue) (buf : Buf) (h : lengthInv q) :
    lengthInv (q.append buf) := by
  obtain ⟨h1, h2⟩ := append_spec q buf
  rw [lengthInv] at h ⊢
  rw [h1, h2, List.length_append]
  omega

theorem splitAtMost_lengthInv (q : BufQueue) (len : Nat) (h : lengthInv q) :
    lengthInv (q.splitAtMost len).2 := by
  obtain ⟨h1, h2, h3⟩ := splitAtMost_spec q len h
  rw [lengthInv] at h ⊢
  rw [h2, h3, List.length_drop]
  omega

theorem trimStartAtMost_lengthInv (q : BufQueue) (amount : Nat) (h : lengthInv q) :
    lengthInv (q.trimStartAtMost amount).2 := by
  obtain ⟨h1, h2, h3, h4⟩ := trimStartAtMost_spec q amount h
  rw [lengthInv] at h ⊢
  rw [h2, h3, List.length_drop]
  omega

/-! ## The claims -/

/-- **C1** (counterexample).  The claim also requires `totalLength == 0`
to hold only when the chain pointer is null after every `trimStartAtMost`;
this is false.  On the spec's own 8-byte queue (which satisfies the length
invariant), `trimStartAtMost 8` consumes the queue exactly and leaves
`chainLength_ = 0` while the chain pointer still holds a chain of one
zero-length segment. -/
theorem C1_counterexample :
    lengthInv q8 ∧
    (q8.trimStartAtMost 8).2.chainLength_ = 0 ∧
    (q8.trimStartAtMost 8).2.chain_ ≠ none := by
  refine ⟨rfl, by decide, by decide⟩

/-- **C1** (amended).  After every `append`, `splitAtMost` and
`trimStartAtMost` on a queue satisfying the length invariant, the cached
`totalLength` again equals the sum of the data-lengths of the segments of
the owned chain, and an absent chain still implies `totalLength == 0`; but
`totalLength == 0` no longer forces the chain pointer to be null (see the
counterexample: an exhausted queue can be a non-null chain of zero-length
segments). -/
theorem C1_invariant (q : BufQueue) (buf : Buf) (len amount : Nat)
    (h : q.chainLength_ = sumLen (bufSegs q.chain_)) :
    ((q.append buf).chainLength_ = sumLen (bufSegs (q.append buf).chain_) ∧
      ((q.append buf).chain_ = none → (q.append buf).chainLength_ = 0)) ∧
    ((q.splitAtMost len).2.chainLength_ = sumLen (bufSegs (q.splitAtMost len).2.chain_) ∧
      ((q.splitAtMost len).2.chain_ = none → (q.splitAtMost len).2.chainLength_ = 0)) ∧
    ((q.trimStartAtMost amount).2.chainLength_ =
        sumLen (bufSegs (q.trimStartAtMost amount).2.chain_) ∧
      ((q.trimStartAtMost amount).2.chain_ = none →
        (q.trimStartAtMost amount).2.chainLength_ = 0)) := by
  have h' : lengthInv q := (lengthInv_sumLen q).mpr h
  have hA := append_lengthInv q buf h'
  have hS := splitAtMost_lengthInv q len h'
  have hT := trimStartAtMost_lengthInv q amount h'
  exact ⟨⟨(lengthInv_sumLen _).mp hA, lengthInv_none _ hA⟩,
    ⟨(lengthInv_sumLen _).mp hS, lengthInv_none _ hS⟩,
    ⟨(lengthInv_sumLen _).mp hT, lengthInv_none _ hT⟩⟩

/-- Witness for C1's amended theorem at the spec §8 queue with an appended
`"DE"` chain, `len = 3`, `amount = 8`. -/
theorem C1_invariant_witness :
    q8.chainLength_ = sumLen (bufSegs q8.chain_) ∧
    (q8.append (some [segDE])).chainLength_ =
      sumLen (bufSegs (q8.append (some [segDE])).chain_) ∧
    (q8.trimStartAtMost 8).2.chainLength_ =
      sumLen (bufSegs (q8.trimStartAtMost 8).2.chain_) :=
  ⟨rfl, ((C1_invariant q8 (some [segDE]) 3 8 rfl).1).1,
    ((C1_invariant q8 (some [segDE]) 3 8 rfl).2.2).1⟩

/-- **C2** (confirmed).  On a queue satisfying the length invariant,
`splitAtMost len` returns exactly the first `min(len, chainLength_)` bytes
of the queue's contents, and the returned chain's byte length plus the
queue's remaining `chainLength_` equals the original total length. -/
theorem C2_splitAtMost (q : BufQueue) (len : Nat) (h : lengthInv q) :
    bufBytes (q.splitAtMost len).1 = (queueBytes q).take (min len q.chainLength_) ∧
    (bufBytes (q.splitAtMost len).1).length + (q.splitAtMost len).2.chainLength_ =
      q.chainLength_ := by
  obtain ⟨h1, h2, h3⟩ := splitAtMost_spec q len h
  refine ⟨h1, ?_⟩
  rw [h1, h3, List.length_take]
  rw [lengthInv] at h
  omega

/-- Witness for C2 at the spec §8 queue with `len = 4` (mid-segment
split). -/
theorem C2_splitAtMost_witness :
    lengthInv q8 ∧
    (bufBytes (q8.splitAtMost 4).1 = (queueBytes q8).take (min 4 q8.chainLength_) ∧
      (bufBytes (q8.splitAtMost 4).1).length + (q8.splitAtMost 4).2.chainLength_ =
        q8.chainLength_) :=
  ⟨rfl, C2_splitAtMost q8 4 rfl⟩

/-- **C3** (counterexample).  Appending the chain returned by
`splitAtMost 3` back onto the remaining queue does not restore the original
byte sequence: `append` splices at the back, so the spec §8 queue
`"ABCDEFGH"` becomes `"DEFGHABC"`. -/
theorem C3_counterexample :
    lengthInv q8 ∧
    queueBytes ((q8.splitAtMost 3).2.append (q8.splitAtMost 3).1) ≠ queueBytes q8 :=
  ⟨rfl, by decide⟩

/-- **C3** (amended).  Appending the chain returned by `splitAtMost len`
back onto the (otherwise unmodified) queue restores the original total
length, and restores the original byte sequence *rotated*: the queue then
holds `S.drop (min len T) ++ S.take (min len T)`.  In particular the
original byte sequence itself is restored when `len = 0` or
`len >= totalLength`. -/
theorem C3_split_append (q : BufQueue) (len : Nat) (h : lengthInv q) :
    ((q.splitAtMost len).2.append (q.splitAtMost len).1).chainLength_ = q.chainLength_ ∧
    queueBytes ((q.splitAtMost len).2.append (q.splitAtMost len).1) =
      (queueBytes q).drop (min len q.chainLength_) ++
        (queueBytes q).take (min len q.chainLength_) ∧
    (len = 0 ∨ q.chainLength_ ≤ len →
      queueBytes ((q.splitAtMost len).2.append (q.splitAtMost len).1) = queueBytes q) := by
  obtain ⟨h1, h2, h3⟩ := splitAtMost_spec q len h
  obtain ⟨a1, a2⟩ := append_spec (q.splitAtMost len).2 (q.splitAtMost len).1
  rw [lengthInv] at h
  have hlen : (bufBytes (q.splitAtMost len).1).length = min len q.chainLength_ := by
    rw [h1, List.length_take]
    omega
  refine ⟨?_, ?_, ?_⟩
  · rw [a2, h3, hlen]
    omega
  · rw [a1, h1, h2]
  · intro hcase
    rw [a1, h1, h2]
    rcases hcase with hz | hge
    · subst hz
      simp
    · have hm : min len q.chainLength_ = q.chainLength_ := by omega
      rw [hm, h, List.drop_length, List.take_length, List.nil_append]

/-- Witness for C3's amended theorem at the spec §8 queue with `len = 8`
(the full-take case, where the byte sequence is restored exactly). -/
theorem C3_split_append_witness :
    lengthInv q8 ∧
    (((q8.splitAtMost 8).2.append (q8.splitAtMost 8).1).chainLength_ = q8.chainLength_ ∧
      queueBytes ((q8.splitAtMost 8).2.append (q8.splitAtMost 8).1) =
        (queueBytes q8).drop (min 8 q8.chainLength_) ++
          (queueBytes q8).take (min 8 q8.chainLength_) ∧
      (8 = 0 ∨ q8.chainLength_ ≤ 8 →
        queueBytes ((q8.splitAtMost 8).2.append (q8.splitAtMost 8).1) = queueBytes q8)) :=
  ⟨rfl, C3_split_append q8 8 rfl⟩

/-- **C4** (confirmed).  On a queue satisfying the length invariant,
`trimStartAtMost amount` discards exactly `min(amount, chainLength_)` bytes
from the front and returns that count, and `trimStart amount` throws the
underflow error exactly when the queue held fewer than `amount` bytes —
otherwise it succeeds, leaving exactly the bytes after the first `amount`
and `chainLength_ - amount` accounted bytes. -/
theorem C4_trim (q : BufQueue) (amount : Nat) (h : lengthInv q) :
    (q.trimStartAtMost amount).1 = min amount q.chainLength_ ∧
    queueBytes (q.trimStartAtMost amount).2 = (queueBytes q).drop amount ∧
    ((q.trimStart amount).2 = true ↔ q.chainLength_ < amount) ∧
    ((q.trimStart amount).2 = false →
      queueBytes (q.trimStart amount).1 = (queueBytes q).drop amount ∧
      (q.trimStart amount).1.chainLength_ = q.chainLength_ - amount) := by
  obtain ⟨t1, t2, t3, t4⟩ := trimStartAtMost_spec q amount h
  refine ⟨t1, t2, ?_, ?_⟩
  · show ((q.trimStartAtMost amount).1 != amount) = true ↔ _
    rw [t1, bne_iff_ne]
    omega
  · intro hf
    exact ⟨t2, t3⟩

/-- Witness for C4 at the spec §8 queue with `amount = 10` (more than the
queue holds: 8 bytes trimmed, underflow thrown by the strict variant). -/
theorem C4_trim_witness :
    lengthInv q8 ∧
    ((q8.trimStartAtMost 10).1 = min 10 q8.chainLength_ ∧
      queueBytes (q8.trimStartAtMost 10).2 = (queueBytes q8).drop 10 ∧
      ((q8.trimStart 10).2 = true ↔ q8.chainLength_ < 10) ∧
      ((q8.trimStart 10).2 = false →
        queueBytes (q8.trimStart 10).1 = (queueBytes q8).drop 10 ∧
        (q8.trimStart 10).1.chainLength_ = q8.chainLength_ - 10)) :=
  ⟨rfl, C4_trim q8 10 rfl⟩

/-- **C5** (counterexample).  The claim also requires `push` to advance the
`appendCount` counter by `len`; it does not.  A successful one-byte `push`
on a fresh writer leaves `appendCount` at `0`, not `1`. -/
theorem C5_counterexample :
    BufWriter.push ⟨[0, 0], 0, 2, 0, 0⟩ [7] = .ok ⟨[7, 0], 1, 2, 1, 0⟩ ∧
    (⟨[7, 0], 1, 2, 1, 0⟩ : BufWriter).appendCount ≠
      (⟨[0, 0], 0, 2, 0, 0⟩ : BufWriter).appendCount + 1 :=
  ⟨rfl, by decide⟩

/-- **C5** (amended).  `push(bytes, len)` fails with CapacityExceeded iff
`written + len > most`; otherwise it copies `len` bytes into the segment's
writable tail (all other memory positions unchanged) and advances the
segment's length and the `written` counter each by `len`, leaving
`appendCount` (and `most`) unchanged. -/
theorem C5_push (w w' : BufWriter) (bytes : List Nat)
    (hroom : w.dataLen + bytes.length ≤ w.mem.length) :
    (w.push bytes = .error .capacityExceeded ↔ w.most < w.written + bytes.length) ∧
    (w.push bytes = .ok w' →
      w'.mem.length = w.mem.length ∧
      (∀ j, j < w.mem.length →
        w'.mem.getD j 0 =
          if w.dataLen ≤ j ∧ j < w.dataLen + bytes.length then bytes.getD (j - w.dataLen) 0
          else w.mem.getD j 0) ∧
      w'.dataLen = w.dataLen + bytes.length ∧
      w'.written = w.written + bytes.length ∧
      w'.appendCount = w.appendCount ∧
      w'.most = w.most) := by
  by_cases hcap : w.most < w.written + bytes.length
  · have hE : w.push bytes = .error .capacityExceeded := by
      simp [BufWriter.push, BufWriter.sizeCheck, hcap]
    rw [hE]
    refine ⟨by simp [hcap], ?_⟩
    intro hok
    cases hok
  · have hO : w.push bytes = .ok
        { w with
          mem := writeAt w.mem w.dataLen bytes
          dataLen := w.dataLen + bytes.length
          written := w.written + bytes.length } := by
      simp [BufWriter.push, BufWriter.sizeCheck, hcap]
    rw [hO]
    refine ⟨by simp [hcap], ?_⟩
    intro hok
    injection hok with hok
    subst hok
    refine ⟨writeAt_length _ _ _ hroom, ?_, rfl, rfl, rfl, rfl⟩
    intro j hj
    exact writeAt_getD w.mem bytes w.dataLen j hroom

/-- Witness for C5's amended theorem: a two-byte writer with budget 2
accepting a one-byte `push`. -/
theorem C5_push_witness :
    (⟨[0, 0], 0, 2, 0, 0⟩ : BufWriter).dataLen + [(7 : Nat)].length ≤
      (⟨[0, 0], 0, 2, 0, 0⟩ : BufWriter).mem.length ∧
    (BufWriter.push ⟨[0, 0], 0, 2, 0, 0⟩ [7] = .error .capacityExceeded ↔
      (⟨[0, 0], 0, 2, 0, 0⟩ : BufWriter).most <
        (⟨[0, 0], 0, 2, 0, 0⟩ : BufWriter).written + [(7 : Nat)].length) :=
  ⟨by decide, (C5_push ⟨[0, 0], 0, 2, 0, 0⟩ ⟨[7, 0], 1, 2, 1, 0⟩ [7] (by decide)).1⟩

/-- **C6** (counterexample).  The claim requires `append(len)` to perform
the same budget check as `push`; it performs none.  On a writer whose budget
is already exhausted (`written + 1 > most`), `append 1` still succeeds. -/
theorem C6_counterexample :
    BufWriter.append ⟨[0], 0, 0, 0, 0⟩ 1 = .ok ⟨[0], 1, 0, 1, 1⟩ ∧
    (⟨[0], 0, 0, 0, 0⟩ : BufWriter).written + 1 > (⟨[0], 0, 0, 0, 0⟩ : BufWriter).most ∧
    BufWriter.append ⟨[0], 0, 0, 0, 0⟩ 1 ≠ .error .capacityExceeded :=
  ⟨rfl, by decide, by simp [BufWriter.append]⟩

/-- **C6** (amended).  `append(len)` performs no budget check at all: it
never fails (even when `written + len > most`), and advances the segment's
length and the `written`/`appendCount` counters each by `len` without
touching the memory contents. -/
theorem C6_append (w : BufWriter) (len : Nat) :
    (∀ e, w.append len ≠ Except.error e) ∧
    ∀ w', w.append len = .ok w' →
      w'.mem = w.mem ∧ w'.dataLen = w.dataLen + len ∧
      w'.written = w.written + len ∧ w'.appendCount = w.appendCount + len ∧
      w'.most = w.most := by
  constructor
  · intro e h
    simp [BufWriter.append] at h
  · intro w' h
    rw [BufWriter.append] at h
    injection h with h
    subst h
    exact ⟨rfl, rfl, rfl, rfl, rfl⟩

/-- Witness for C6's amended theorem: the over-budget writer of the
counterexample. -/
theorem C6_append_witness :
    BufWriter.append ⟨[0], 0, 0, 0, 0⟩ 1 ≠ Except.error WriterError.capacityExceeded ∧
    (⟨[0], 1, 0, 1, 1⟩ : BufWriter).mem = (⟨[0], 0, 0, 0, 0⟩ : BufWriter).mem ∧
    (⟨[0], 1, 0, 1, 1⟩ : BufWriter).written = (⟨[0], 0, 0, 0, 0⟩ : BufWriter).written + 1 :=
  ⟨(C6_append ⟨[0], 0, 0, 0, 0⟩ 1).1 WriterError.capacityExceeded,
    ((C6_append ⟨[0], 0, 0, 0, 0⟩ 1).2 ⟨[0], 1, 0, 1, 1⟩ rfl).1,
    ((C6_append ⟨[0], 0, 0, 0, 0⟩ 1).2 ⟨[0], 1, 0, 1, 1⟩ rfl).2.2.1⟩

/-- **C7** (counterexample).  After `insert` of a two-segment chain, the
appender's current tail pointer is the *entry* segment of the inserted
chain, not its last segment. -/
theorem C7_counterexample :
    ([⟨[1], 1, false⟩, ⟨[2], 2, false⟩] : List Segment).getLast? = some ⟨[2], 2, false⟩ ∧
    (BufAppender.insert ⟨[⟨[0], 0, false⟩], 0, false, 4⟩
        [⟨[1], 1, false⟩, ⟨[2], 2, false⟩]).chain.get?
      (BufAppender.insert ⟨[⟨[0], 0, false⟩], 0, false, 4⟩
        [⟨[1], 1, false⟩, ⟨[2], 2, false⟩]).crtBuf ≠ some ⟨[2], 2, false⟩ :=
  ⟨rfl, by decide⟩

/-- **C7** (amended).  `insert(C)` sets the "last inserted was shared" guard
to true iff `C`'s entry segment is marked shared, splices `C` onto the end
of the managed chain, and afterwards the appender's current tail pointer is
the *first* (entry) segment of `C`. -/
theorem C7_insert (a : BufAppender) (c : Segment) (cs : List Segment) :
    (a.insert (c :: cs)).lastBufShared = c.shared ∧
    (a.insert (c :: cs)).chain = a.chain ++ (c :: cs) ∧
    (a.insert (c :: cs)).crtBuf = a.chain.length ∧
    (a.insert (c :: cs)).chain.get? (a.insert (c :: cs)).crtBuf = some c := by
  refine ⟨rfl, rfl, rfl, ?_⟩
  show (a.chain ++ (c :: cs)).get? a.chain.length = some c
  rw [List.get?_eq_getElem?, List.getElem?_append_right (le_refl _), Nat.sub_self]
  simp

/-- **C8** (confirmed).  When `0 < len < chainLength_` and `len` falls
exactly on a segment boundary (some `i`-segment prefix holds exactly `len`
bytes), `splitAtMost len` is pure pointer surgery: the returned chain's
segments followed by the remaining queue's segments are *exactly* the
original segment headers (no byte copied, no segment cloned, every
segment's data untouched), the returned chain holds exactly `len` bytes,
and in particular every storage's share count — the number of segment
headers referencing it — is unchanged. -/
theorem C8_boundary (q : BufQueue) (l : List Segment) (len i : Nat)
    (hc : q.chain_ = some l) (_hinv : lengthInv q)
    (hb : sumLen (l.take i) = len) (h0 : 0 < len) (hlt : len < q.chainLength_) :
    bufSegs (q.splitAtMost len).1 ++ bufSegs (q.splitAtMost len).2.chain_ = l ∧
    sumLen (bufSegs (q.splitAtMost len).1) = len ∧
    (q.splitAtMost len).2.chainLength_ = q.chainLength_ - len ∧
    (∀ sid, storageCount (bufSegs (q.splitAtMost len).1) sid +
        storageCount (bufSegs (q.splitAtMost len).2.chain_) sid = storageCount l sid) := by
  have hr0 : (splitGo l len).2.1 = 0 := splitGo_boundary l len i hb
  obtain ⟨hs1, hs2, hs3⟩ := splitGo_spec l len
  rcases hsp : splitGo l len with ⟨pre, r, suf⟩
  rw [hsp] at hr0 hs1 hs2
  simp only at hr0 hs1 hs2
  subst hr0
  have heq : q.splitAtMost len = (some pre, ⟨some suf, q.chainLength_ - len⟩) := by
    simp [BufQueue.splitAtMost, hc, (show ¬ len = 0 by omega),
      (show ¬ q.chainLength_ ≤ len by omega), hsp]
  rw [heq]
  refine ⟨by simpa [bufSegs] using hs1, by simp [bufSegs]; omega, rfl, ?_⟩
  intro sid
  simp only [bufSegs]
  rw [← hs1, storageCount, storageCount, storageCount, List.countP_append]

/-- Witness for C8 at the spec §8 queue: `len = 3` is the boundary after
the first segment (`i = 1`). -/
theorem C8_boundary_witness :
    q8.chain_ = some [segABC, segDE, segFGH] ∧
    sumLen (([segABC, segDE, segFGH] : List Segment).take 1) = 3 ∧
    bufSegs (q8.splitAtMost 3).1 ++ bufSegs (q8.splitAtMost 3).2.chain_ =
      [segABC, segDE, segFGH] ∧
    sumLen (bufSegs (q8.splitAtMost 3).1) = 3 :=
  ⟨rfl, rfl,
    (C8_boundary q8 [segABC, segDE, segFGH] 3 1 rfl rfl rfl (by decide) (by decide)).1,
    (C8_boundary q8 [segABC, segDE, segFGH] 3 1 rfl rfl rfl (by decide) (by decide)).2.1⟩

/-- **C9** (confirmed).  `backFill(bytes, len, destOffset)` fails with a
contract violation exactly when `len` exceeds the `appendCount` budget or
`destOffset + len` exceeds the segment's current logical length; on success
it decrements `appendCount` by `len`, leaves the length counters alone, and
overwrites exactly the `len` bytes at `destOffset` (every other memory
position keeps its previous value). -/
theorem C9_backFill (w w' : BufWriter) (bytes : List Nat) (destOffset : Nat)
    (hwf : w.dataLen ≤ w.mem.length) :
    (w.backFill bytes destOffset = .error .contractViolation ↔
      w.appendCount < bytes.length ∨ w.dataLen < destOffset + bytes.length) ∧
    (w.backFill bytes destOffset = .ok w' →
      w'.appendCount = w.appendCount - bytes.length ∧
      bytes.length ≤ w.appendCount ∧
      w'.dataLen = w.dataLen ∧ w'.written = w.written ∧ w'.most = w.most ∧
      w'.mem.length = w.mem.length ∧
      (∀ j, j < w.mem.length →
        w'.mem.getD j 0 =
          if destOffset ≤ j ∧ j < destOffset + bytes.length then
            bytes.getD (j - destOffset) 0
          else w.mem.getD j 0)) := by
  by_cases h1 : w.appendCount < bytes.length
  · have hE : w.backFill bytes destOffset = .error .contractViolation := by
      simp [BufWriter.backFill, h1]
    rw [hE]
    refine ⟨by simp [h1], ?_⟩
    intro hok
    cases hok
  · by_cases h2 : w.dataLen < destOffset + bytes.length
    · have hE : w.backFill bytes destOffset = .error .contractViolation := by
        simp [BufWriter.backFill, h1, h2]
      rw [hE]
      refine ⟨by simp [h1, h2], ?_⟩
      intro hok
      cases hok
    · have hroom : destOffset + bytes.length ≤ w.mem.length := by omega
      have hO : w.backFill bytes destOffset = .ok
          { w with
            appendCount := w.appendCount - bytes.length
            mem := writeAt w.mem destOffset bytes } := by
        simp [BufWriter.backFill, h1, h2]
      rw [hO]
      refine ⟨by simp [h1, h2], ?_⟩
      intro hok
      injection hok with hok
      subst hok
      refine ⟨rfl, by omega, rfl, rfl, rfl, writeAt_length _ _ _ hroom, ?_⟩
      intro j hj
      exact writeAt_getD w.mem bytes destOffset j hroom

/-- Witness for C9: a writer with two appended-but-unspent bytes accepting
a two-byte backfill at offset 0. -/
theorem C9_backFill_witness :
    (⟨[5, 6], 2, 2, 2, 2⟩ : BufWriter).dataLen ≤ (⟨[5, 6], 2, 2, 2, 2⟩ : BufWriter).mem.length ∧
    (BufWriter.backFill ⟨[5, 6], 2, 2, 2, 2⟩ [9, 9] 0 = .error .contractViolation ↔
      (⟨[5, 6], 2, 2, 2, 2⟩ : BufWriter).appendCount < [(9 : Nat), 9].length ∨
      (⟨[5, 6], 2, 2, 2, 2⟩ : BufWriter).dataLen < 0 + [(9 : Nat), 9].length) :=
  ⟨by decide,
    (C9_backFill ⟨[5, 6], 2, 2, 2, 2⟩ ⟨[9, 9], 2, 2, 2, 0⟩ [9, 9] 0 (by decide)).1⟩

/-- **C10** (confirmed).  `trimStart` is not atomic on failure: whenever the
queue (satisfying the length invariant) holds fewer than `amount` bytes,
the underflow error is thrown and the queue state at that moment is already
completely empty — chain pointer null, `chainLength_` zero, every byte it
held discarded and not restored. -/
theorem C10_trimStart_underflow (q : BufQueue) (amount : Nat)
    (h : lengthInv q) (hlt : q.chainLength_ < amount) :
    (q.trimStart amount).2 = true ∧
    (q.trimStart amount).1.chain_ = none ∧
    (q.trimStart amount).1.chainLength_ = 0 ∧
    queueBytes (q.trimStart amount).1 = [] := by
  obtain ⟨t1, t2, t3, t4⟩ := trimStartAtMost_spec q amount h
  have hnone := t4 hlt
  refine ⟨?_, hnone, ?_, ?_⟩
  · show ((q.trimStartAtMost amount).1 != amount) = true
    rw [t1, bne_iff_ne]
    omega
  · show (q.trimStartAtMost amount).2.chainLength_ = 0
    rw [t3]
    omega
  · show queueBytes (q.trimStartAtMost amount).2 = []
    simp [queueBytes, hnone, bufBytes]

/-- Witness for C10: the spec §8 queue with `trimStart 10` (scenario from
spec §8: "trimStart(10) on an 8-byte queue fails with Underflow"). -/
theorem C10_trimStart_underflow_witness :
    lengthInv q8 ∧ q8.chainLength_ < 10 ∧
    (q8.trimStart 10).2 = true ∧ (q8.trimStart 10).1.chain_ = none :=
  ⟨rfl, by decide, (C10_trimStart_underflow q8 10 rfl (by decide)).1,
    (C10_trimStart_underflow q8 10 rfl (by decide)).2.1⟩

end BufUtil
